import Mathlib

/-!
# Verification of the DILL-bot vote-tally and status-reconciliation engine

This file gives a shallow embedding of the vote-counting, status-resolution,
tag-reconciliation and spreadsheet-reconciliation logic of the repository
(`src/sync.py`, `src/features/spreadsheets/cog.py`, `src/cogs/google_sheets.py`,
`src/spreadsheets.py`) and proves or refutes the specification's claims about it.

Conventions of the embedding:
* machine floats used for ages, percentages and vote fractions are modelled as
  rationals (`ℚ`); the comparisons in the code are plain orderings on literals;
* Python sets of tag names become `Finset String`; lists keep their order;
* Discord tag ids are `ℕ`, reaction counts are `ℕ`, and computed vote counts
  are `ℤ` (the code computes `reaction.count - 1`, which in Python may be
  negative);
* a fallible operation returns `Option`: `none` models an early `return`.
-/

namespace DillBot

/-! ## Tag model (sync.py `SyncCog` and cog.py `SpreadsheetCog`) -/

/-- The three status-tag names, as resolved from the forum channel's available
tags by id in `SyncCog.manage_thread_tags` (sync.py, lines 246-254). -/
structure StatusTagNames where
  initialVote : String
  addedToList : String
  notAddedToList : String
deriving DecidableEq

/-- The pairwise-distinctness assumption on the three status tag names (they
are looked up from three distinct hard-coded tag ids). -/
def StatusTagNames.Distinct (n : StatusTagNames) : Prop :=
  n.initialVote ≠ n.addedToList ∧ n.initialVote ≠ n.notAddedToList ∧
    n.addedToList ≠ n.notAddedToList

/-- `SyncCog.manage_thread_tags` (sync.py, lines 242-279): from the thread age
in hours and the vote percentage, compute the `(tags_to_add, tags_to_remove)`
delta against the current tag set.  List order mirrors the order of the
`append` calls in the source. -/
def manageThreadTags (n : StatusTagNames) (votePercentage threadAge : ℚ)
    (currentTags : Finset String) : List String × List String :=
  if threadAge ≤ 24 then
    ((if n.initialVote ∈ currentTags then [] else [n.initialVote]),
     (if n.addedToList ∈ currentTags then [n.addedToList] else []) ++
       (if n.notAddedToList ∈ currentTags then [n.notAddedToList] else []))
  else
    let rem0 := if n.initialVote ∈ currentTags then [n.initialVote] else []
    if votePercentage ≥ 501 / 10 then
      ((if n.addedToList ∈ currentTags then [] else [n.addedToList]),
       rem0 ++ (if n.notAddedToList ∈ currentTags then [n.notAddedToList] else []))
    else
      ((if n.notAddedToList ∈ currentTags then [] else [n.notAddedToList]),
       rem0 ++ (if n.addedToList ∈ currentTags then [n.addedToList] else []))

/-- `SyncCog.update_thread_tags` (sync.py, lines 289-321): the new tag set
`(current - (remove ∩ current)) ∪ (add - current)`, restricted to tag names
that exist among the channel's available tags. -/
def updateThreadTagsNew (availableTags currentTags : Finset String)
    (tagsToAdd tagsToRemove : List String) : Finset String :=
  let addSet := tagsToAdd.toFinset \ currentTags
  let removeSet := tagsToRemove.toFinset ∩ currentTags
  ((currentTags \ removeSet) ∪ addSet).filter (· ∈ availableTags)

/-- `SyncCog.update_thread_tags` issues a `thread.edit` call exactly when the
new tag set differs from the thread's applied tag set. -/
def syncEditIssued (availableTags currentTags : Finset String)
    (tagsToAdd tagsToRemove : List String) : Prop :=
  updateThreadTagsNew availableTags currentTags tagsToAdd tagsToRemove ≠ currentTags

/-- One pass of the sync.py tag pipeline: `manage_thread_tags` computes the
delta and `update_thread_tags` applies it; the result is the thread's tag set
afterwards (unchanged when no edit is issued, since then the sets agree). -/
def syncFinalTags (n : StatusTagNames) (availableTags : Finset String)
    (votePercentage threadAge : ℚ) (currentTags : Finset String) : Finset String :=
  let d := manageThreadTags n votePercentage threadAge currentTags
  updateThreadTagsNew availableTags currentTags d.1 d.2

/-- The vote percentage of `SyncCog.manage_tags_task` (sync.py, lines 374-377):
`yes / total * 100` when the total is positive, else `0`. -/
def votePct (yes no : ℤ) : ℚ :=
  if 0 < yes + no then (yes : ℚ) / ((yes : ℚ) + (no : ℚ)) * 100 else 0

/-! ### cog.py hard-coded tag ids (`TAG_IDS`, lines 23-27) -/

def NOT_IN_LIST : ℕ := 1258877875457626154
def ADDED_TO_LIST : ℕ := 1298038416025452585
def INITIAL_VOTE : ℕ := 1315553680874803291

/-- `SpreadsheetCog.process_thread_votes` (cog.py, lines 181-227): decide
whether a thread's tags get updated this cycle.  `some b` means
`update_thread_tags(thread, is_approved := b)` is invoked; `none` models the
early `return`s, which leave the thread's tags unchanged. -/
def processThreadVotes (ageHours : ℚ) (currentTagIds : List ℕ)
    (yes no : ℤ) : Option Bool :=
  if ageHours < 24 then none
  else if ADDED_TO_LIST ∈ currentTagIds ∨ NOT_IN_LIST ∈ currentTagIds then none
  else if INITIAL_VOTE ∉ currentTagIds then none
  else if yes + no = 0 then none
  else some (decide ((yes : ℚ) / ((yes : ℚ) + (no : ℚ)) > 5001 / 10000))

/-- `SpreadsheetCog.check_thread_ratio` (cog.py, lines 903-936): `some false`
means the thread is demoted (`update_thread_tags(thread, False)`), `some true`
means it is promoted, `none` means no tag change. The `added` / `notIn` tag
ids come from the server configuration. -/
def checkThreadStatus (addedTagId notInTagId : ℕ) (currentTagIds : List ℕ)
    (yes no : ℤ) : Option Bool :=
  if yes + no = 0 then none
  else
    if addedTagId ∈ currentTagIds ∧ (yes : ℚ) / ((yes : ℚ) + (no : ℚ)) < 34 / 100 then
      some false
    else if notInTagId ∈ currentTagIds ∧
        (yes : ℚ) / ((yes : ℚ) + (no : ℚ)) > 5001 / 10000 then
      some true
    else none

/-- `SpreadsheetCog.update_thread_tags` (cog.py, lines 273-306): `some l`
means a `thread.edit(applied_tags := l)` call is issued with the new applied
tag-id list; `none` means the new tag id was not among the channel's
available tags and the function returned without editing. -/
def cogUpdateThreadTags (availableTagIds appliedTagIds : List ℕ)
    (isApproved : Bool) : Option (List ℕ) :=
  let newTagId := if isApproved then ADDED_TO_LIST else NOT_IN_LIST
  if newTagId ∈ availableTagIds then
    some ((appliedTagIds.filter
      (fun t => decide (t ∉ [ADDED_TO_LIST, NOT_IN_LIST, INITIAL_VOTE]))) ++ [newTagId])
  else none

/-! ## Vote counters -/

/-- A reaction emoji: either a custom guild emoji (with a name and a numeric
id) or a plain Unicode emoji. -/
inductive REmoji where
  | custom (name : String) (id : ℕ)
  | unicode (s : String)
deriving DecidableEq

/-- A reaction on the opening message: an emoji together with its user count. -/
structure Reaction where
  emoji : REmoji
  count : ℕ
deriving DecidableEq

/-- `SyncCog.process_thread_data` counting loop (sync.py, lines 156-189):
accumulates `count - 1` over the configured custom yes/no emoji and the
Unicode check / cross marks. -/
def syncStep (yesEmojiId noEmojiId : ℕ) (acc : ℤ × ℤ) (r : Reaction) : ℤ × ℤ :=
  match r.emoji with
  | .custom _ i =>
      if i = yesEmojiId then (acc.1 + ((r.count : ℤ) - 1), acc.2)
      else if i = noEmojiId then (acc.1, acc.2 + ((r.count : ℤ) - 1))
      else acc
  | .unicode s =>
      if s = "✅" ∨ s = "☑️" then (acc.1 + ((r.count : ℤ) - 1), acc.2)
      else if s = "❌" ∨ s = "✖️" then (acc.1, acc.2 + ((r.count : ℤ) - 1))
      else acc

def syncCountVotes (yesEmojiId noEmojiId : ℕ) (reactions : List Reaction) : ℤ × ℤ :=
  reactions.foldl (syncStep yesEmojiId noEmojiId) (0, 0)

/-- `SpreadsheetService.process_thread_data` counting loop (spreadsheets.py,
lines 160-171): matches only the configured custom emoji ids and *assigns*
(`yes_count = reaction.count - 1`), so a later match overwrites an earlier
one. -/
def spreadStep (yesEmojiId noEmojiId : ℕ) (acc : ℤ × ℤ) (r : Reaction) : ℤ × ℤ :=
  match r.emoji with
  | .custom _ i =>
      if i = yesEmojiId then ((r.count : ℤ) - 1, acc.2)
      else if i = noEmojiId then (acc.1, (r.count : ℤ) - 1)
      else acc
  | .unicode _ => acc

def spreadCountVotes (yesEmojiId noEmojiId : ℕ) (reactions : List Reaction) : ℤ × ℤ :=
  reactions.foldl (spreadStep yesEmojiId noEmojiId) (0, 0)

/-- How `str(reaction.emoji)` renders an emoji in Python / discord.py. -/
def renderEmoji : REmoji → String
  | .custom n i => "<:" ++ n ++ ":" ++ toString i ++ ">"
  | .unicode s => s

/-- `GoogleSheets._process_thread` counting (google_sheets.py, lines 52-65):
sums the raw reaction counts of the hard-coded rendered emoji, with no
subtraction of the bot's seed reaction. -/
def googleCountVotes (reactions : List Reaction) : ℕ × ℕ :=
  (((reactions.filter (fun r =>
      decide (renderEmoji r.emoji = "<:pickle_yes:1263941895625900085>" ∨
        renderEmoji r.emoji = "<:abobaheavenlymerveilleuxinstantw:1166782218849484810>"))).map
      (·.count)).sum,
   ((reactions.filter (fun r =>
      decide (renderEmoji r.emoji = "<:pickle_no:1263941842244730972>"))).map
      (·.count)).sum)

def VALID_YES_EMOJIS : List String :=
  ["pickle_yes", "white_check_mark", "abobaheavenlymerveilleuxinstantw"]

def VALID_NO_EMOJIS : List String := ["pickle_no", "x"]

/-- `SpreadsheetCog.count_votes` (cog.py, lines 238-262): matches by the
lower-cased custom emoji name or the Unicode character itself, accumulating
`count - 1` per matched reaction. -/
def cogStep (acc : ℤ × ℤ) (r : Reaction) : ℤ × ℤ :=
  let emojiName :=
    match r.emoji with
    | .unicode s => s
    | .custom n _ => n.toLower
  if emojiName ∈ VALID_YES_EMOJIS ∨ emojiName = "✅" then
    (acc.1 + ((r.count : ℤ) - 1), acc.2)
  else if emojiName ∈ VALID_NO_EMOJIS ∨ emojiName = "❌" then
    (acc.1, acc.2 + ((r.count : ℤ) - 1))
  else acc

def countVotes (reactions : List Reaction) : ℤ × ℤ :=
  reactions.foldl cogStep (0, 0)

/-! ## Helper lemmas on the sync.py tag pipeline -/

/-- Membership in the tag set computed by `SyncCog.update_thread_tags`:
a tag survives if it is available and either was present and not removed, or
was absent and is added. -/
theorem mem_updateThreadTagsNew {availableTags currentTags : Finset String}
    {tagsToAdd tagsToRemove : List String} {x : String} :
    x ∈ updateThreadTagsNew availableTags currentTags tagsToAdd tagsToRemove ↔
      x ∈ availableTags ∧
        ((x ∈ currentTags ∧ x ∉ tagsToRemove) ∨ (x ∈ tagsToAdd ∧ x ∉ currentTags)) := by
  simp only [updateThreadTagsNew, Finset.mem_filter, Finset.mem_union, Finset.mem_sdiff,
    Finset.mem_inter, List.mem_toFinset]
  tauto

/-- The tag set after one pass over a thread younger than the 24-hour cutoff:
the Initial Vote tag is present and the two final-status tags are absent. -/
theorem syncFinalTags_young {n : StatusTagNames} {availableTags : Finset String}
    {votePercentage threadAge : ℚ} {currentTags : Finset String}
    (hd : n.Distinct) (havail : n.initialVote ∈ availableTags)
    (hage : threadAge ≤ 24) :
    n.initialVote ∈ syncFinalTags n availableTags votePercentage threadAge currentTags ∧
      n.addedToList ∉ syncFinalTags n availableTags votePercentage threadAge currentTags ∧
      n.notAddedToList ∉ syncFinalTags n availableTags votePercentage threadAge currentTags := by
  obtain ⟨h1, h2, h3⟩ := hd
  simp only [syncFinalTags, manageThreadTags, if_pos hage]
  refine ⟨?_, ?_, ?_⟩ <;>
    · simp only [mem_updateThreadTagsNew, List.mem_append]
      by_cases ha : n.initialVote ∈ currentTags <;>
        by_cases hb : n.addedToList ∈ currentTags <;>
        by_cases hc : n.notAddedToList ∈ currentTags <;>
        simp_all <;> tauto

/-- The tag set after one pass over a thread older than 24 hours with vote
percentage at least 50.1: the Added to List tag is present, the other two
status tags are absent. -/
theorem syncFinalTags_approved {n : StatusTagNames} {availableTags : Finset String}
    {votePercentage threadAge : ℚ} {currentTags : Finset String}
    (hd : n.Distinct) (havail : n.addedToList ∈ availableTags)
    (hage : ¬ threadAge ≤ 24) (hpct : votePercentage ≥ 501 / 10) :
    n.addedToList ∈ syncFinalTags n availableTags votePercentage threadAge currentTags ∧
      n.initialVote ∉ syncFinalTags n availableTags votePercentage threadAge currentTags ∧
      n.notAddedToList ∉ syncFinalTags n availableTags votePercentage threadAge currentTags := by
  obtain ⟨h1, h2, h3⟩ := hd
  simp only [syncFinalTags, manageThreadTags, if_neg hage, if_pos hpct]
  refine ⟨?_, ?_, ?_⟩ <;>
    · simp only [mem_updateThreadTagsNew, List.mem_append]
      by_cases ha : n.initialVote ∈ currentTags <;>
        by_cases hb : n.addedToList ∈ currentTags <;>
        by_cases hc : n.notAddedToList ∈ currentTags <;>
        simp_all <;> tauto

/-- The tag set after one pass over a thread older than 24 hours with vote
percentage below 50.1: the Not Added to List tag is present, the other two
status tags are absent. -/
theorem syncFinalTags_rejected {n : StatusTagNames} {availableTags : Finset String}
    {votePercentage threadAge : ℚ} {currentTags : Finset String}
    (hd : n.Distinct) (havail : n.notAddedToList ∈ availableTags)
    (hage : ¬ threadAge ≤ 24) (hpct : ¬ votePercentage ≥ 501 / 10) :
    n.notAddedToList ∈ syncFinalTags n availableTags votePercentage threadAge currentTags ∧
      n.initialVote ∉ syncFinalTags n availableTags votePercentage threadAge currentTags ∧
      n.addedToList ∉ syncFinalTags n availableTags votePercentage threadAge currentTags := by
  obtain ⟨h1, h2, h3⟩ := hd
  simp only [syncFinalTags, manageThreadTags, if_neg hage, if_neg hpct]
  refine ⟨?_, ?_, ?_⟩ <;>
    · simp only [mem_updateThreadTagsNew, List.mem_append]
      by_cases ha : n.initialVote ∈ currentTags <;>
        by_cases hb : n.addedToList ∈ currentTags <;>
        by_cases hc : n.notAddedToList ∈ currentTags <;>
        simp_all <;> tauto

/-- The status tag that `SyncCog.manage_thread_tags` drives the thread
towards, read off from its branch structure: Initial Vote up to 24 hours,
then Added to List at percentage ≥ 50.1, else Not Added to List. -/
def correctStatusTag (n : StatusTagNames) (votePercentage threadAge : ℚ) : String :=
  if threadAge ≤ 24 then n.initialVote
  else if votePercentage ≥ 501 / 10 then n.addedToList
  else n.notAddedToList

/-- If the correct status tag is already present and the two other status
tags are absent, `manage_thread_tags` computes empty deltas. -/
theorem manageThreadTags_empty {n : StatusTagNames} {votePercentage threadAge : ℚ}
    {currentTags : Finset String}
    (hcorrect : correctStatusTag n votePercentage threadAge ∈ currentTags)
    (hothers : ∀ t ∈ [n.initialVote, n.addedToList, n.notAddedToList],
      t ≠ correctStatusTag n votePercentage threadAge → t ∉ currentTags)
    (hd : n.Distinct) :
    manageThreadTags n votePercentage threadAge currentTags = ([], []) := by
  obtain ⟨h1, h2, h3⟩ := hd
  simp only [List.mem_cons, List.not_mem_nil, or_false, forall_eq_or_imp, forall_eq] at hothers
  by_cases hage : threadAge ≤ 24
  · simp only [correctStatusTag, if_pos hage] at hcorrect hothers
    simp only [manageThreadTags, if_pos hage, if_pos hcorrect,
      if_neg (hothers.2.1 h1.symm), if_neg (hothers.2.2 h2.symm), List.append_nil]
  · by_cases hpct : votePercentage ≥ 501 / 10
    · simp only [correctStatusTag, if_neg hage, if_pos hpct] at hcorrect hothers
      simp only [manageThreadTags, if_neg hage, if_pos hpct, if_pos hcorrect,
        if_neg (hothers.1 h1), if_neg (hothers.2.2 h3.symm), List.nil_append]
    · simp only [correctStatusTag, if_neg hage, if_neg hpct] at hcorrect hothers
      simp only [manageThreadTags, if_neg hage, if_neg hpct, if_pos hcorrect,
        if_neg (hothers.1 h2), if_neg (hothers.2.1 h3), List.nil_append]

/-- Applying empty deltas to a tag set whose tags are all available leaves
the set unchanged, so `update_thread_tags` issues no `thread.edit` call. -/
theorem updateThreadTagsNew_nil {availableTags currentTags : Finset String}
    (hsub : currentTags ⊆ availableTags) :
    updateThreadTagsNew availableTags currentTags [] [] = currentTags := by
  ext x
  simp only [mem_updateThreadTagsNew, List.not_mem_nil, not_false_iff, and_true, false_and,
    or_false]
  exact ⟨fun h => h.2, fun h => ⟨hsub h, h⟩⟩

/-- The tag set produced by one pass of the sync.py tag pipeline only contains
available tags. -/
theorem syncFinalTags_subset (n : StatusTagNames) (availableTags : Finset String)
    (votePercentage threadAge : ℚ) (currentTags : Finset String) :
    syncFinalTags n availableTags votePercentage threadAge currentTags ⊆ availableTags := by
  intro x hx
  rw [syncFinalTags, mem_updateThreadTagsNew] at hx
  exact hx.1

/-! ## Concrete sample configuration used by witnesses and counterexamples -/

/-- The status tag names of the tracked forum channel. -/
def sampleNames : StatusTagNames :=
  ⟨"Initial Vote", "Added to List", "Not Added to List"⟩

/-- An available-tags set containing the three status tags. -/
def sampleAvail : Finset String :=
  {"Initial Vote", "Added to List", "Not Added to List"}

/-- The three sample tag names are pairwise distinct. -/
theorem sampleNames_distinct : sampleNames.Distinct := by
  refine ⟨?_, ?_, ?_⟩ <;> decide

/-! ## Claim C1 — hysteresis band -/

/-- Claim C1, as stated, is false for `SyncCog.manage_thread_tags`: a thread
past the minimum age (30 h) that is currently Approved (`Added to List`
applied) with vote percentage 40 — inside the claimed hysteresis band
[34, 50.1] — has `Added to List` removed and ends up Rejected. -/
theorem c1_counterexample :
    "Added to List" ∈
      (manageThreadTags sampleNames 40 30 {"Added to List"}).2 ∧
    syncFinalTags sampleNames sampleAvail 40 30 {"Added to List"} =
      {"Not Added to List"} := by
  have h30 : ¬ (30 : ℚ) ≤ 24 := by norm_num
  have h40 : ¬ (40 : ℚ) ≥ 501 / 10 := by norm_num
  constructor
  · simp only [manageThreadTags, if_neg h30, if_neg h40, sampleNames]
    decide
  · simp only [syncFinalTags, manageThreadTags, if_neg h30, if_neg h40, sampleNames,
      sampleAvail, updateThreadTagsNew]
    decide

/-- Claim C1 (amended): the hysteresis band holds for
`SpreadsheetCog.check_thread_ratio`: a thread bearing the Added-to-List tag
is never demoted while its vote fraction is at least 0.34, and any demotion
it performs happens only when the fraction is strictly below 0.34.
(`SyncCog.manage_thread_tags` has no such band, see the counterexample.) -/
theorem c1_hysteresis_amended (addedTagId notInTagId : ℕ) (currentTagIds : List ℕ)
    (yes no : ℤ) :
    (addedTagId ∈ currentTagIds → 34 / 100 ≤ (yes : ℚ) / ((yes : ℚ) + (no : ℚ)) →
      checkThreadStatus addedTagId notInTagId currentTagIds yes no ≠ some false) ∧
    (checkThreadStatus addedTagId notInTagId currentTagIds yes no = some false →
      addedTagId ∈ currentTagIds ∧ (yes : ℚ) / ((yes : ℚ) + (no : ℚ)) < 34 / 100) := by
  unfold checkThreadStatus
  split_ifs with h0 h1 h2 <;> constructor <;> intro h <;> simp_all

/-- Witness for C1 (amended) at a concrete input: Added-to-List thread with
2 yes / 3 no votes (fraction 0.4, inside the band) is not demoted. -/
theorem c1_hysteresis_witness :
    checkThreadStatus 7 9 [7] 2 3 ≠ some false :=
  (c1_hysteresis_amended 7 9 [7] 2 3).1 (by decide) (by norm_num)

/-! ## Claim C2 — young-thread rule -/

/-- Claim C2: a thread strictly younger than 24 hours always resolves to
Pending: the sync.py pipeline applies the Initial Vote tag and removes both
final-status tags regardless of the vote percentage, and cog.py's
`process_thread_votes` returns without assigning any status tag. -/
theorem c2_young_threads (n : StatusTagNames) (availableTags : Finset String)
    (votePercentage threadAge : ℚ) (currentTags : Finset String)
    (hd : n.Distinct) (havail : n.initialVote ∈ availableTags)
    (hage : threadAge < 24) :
    (n.initialVote ∈ syncFinalTags n availableTags votePercentage threadAge currentTags ∧
      n.addedToList ∉ syncFinalTags n availableTags votePercentage threadAge currentTags ∧
      n.notAddedToList ∉
        syncFinalTags n availableTags votePercentage threadAge currentTags) ∧
    (∀ (currentTagIds : List ℕ) (yes no : ℤ),
      processThreadVotes threadAge currentTagIds yes no = none) := by
  refine ⟨syncFinalTags_young hd havail (le_of_lt hage), fun tags yes no => ?_⟩
  simp only [processThreadVotes, if_pos hage]

/-- Witness for C2: a 10-hour-old thread with unanimous approval (percentage
100) stays Pending. -/
theorem c2_young_threads_witness :
    ("Initial Vote" ∈ syncFinalTags sampleNames sampleAvail 100 10 ∅ ∧
      "Added to List" ∉ syncFinalTags sampleNames sampleAvail 100 10 ∅ ∧
      "Not Added to List" ∉ syncFinalTags sampleNames sampleAvail 100 10 ∅) ∧
    processThreadVotes 10 [INITIAL_VOTE] 5 0 = none :=
  ⟨(c2_young_threads sampleNames sampleAvail 100 10 ∅ sampleNames_distinct (by decide)
      (by norm_num)).1,
   (c2_young_threads sampleNames sampleAvail 100 10 ∅ sampleNames_distinct (by decide)
      (by norm_num)).2 [INITIAL_VOTE] 5 0⟩

/-! ## Claim C3 — zero-vote resolution -/

/-- Claim C3, as stated, is false for `SpreadsheetCog.process_thread_votes`:
a 30-hour-old thread with the Initial Vote tag and zero votes is skipped
(`if total_votes == 0: return`), leaving its status unchanged rather than
resolving to Rejected. -/
theorem c3_counterexample :
    processThreadVotes 30 [INITIAL_VOTE] 0 0 = none ∧
      processThreadVotes 30 [INITIAL_VOTE] 0 0 ≠ some false := by
  have h : processThreadVotes 30 [INITIAL_VOTE] 0 0 = none := by
    norm_num [processThreadVotes]
  exact ⟨h, by rw [h]; simp⟩

/-- Claim C3 (amended): with zero total votes no resolver ever approves —
`process_thread_votes` returns with no tag change at all (so a zero-vote
thread past the minimum age keeps its current status there), while the
sync.py pipeline treats the percentage as 0 and, past 24 hours, resolves the
thread to Rejected (Not Added to List). -/
theorem c3_zero_votes_amended :
    (∀ (ageHours : ℚ) (currentTagIds : List ℕ) (yes no : ℤ), yes + no = 0 →
      processThreadVotes ageHours currentTagIds yes no = none) ∧
    (∀ (n : StatusTagNames) (availableTags : Finset String) (threadAge : ℚ)
        (currentTags : Finset String),
      n.Distinct → n.initialVote ∈ availableTags → n.notAddedToList ∈ availableTags →
      n.addedToList ∉ syncFinalTags n availableTags (votePct 0 0) threadAge currentTags ∧
        (¬ threadAge ≤ 24 →
          n.notAddedToList ∈
            syncFinalTags n availableTags (votePct 0 0) threadAge currentTags)) := by
  have hpct0 : votePct 0 0 = 0 := by norm_num [votePct]
  constructor
  · intro age tags yes no h
    simp only [processThreadVotes]
    split_ifs <;> simp_all
  · intro n avail age current hd hiv hna
    rw [hpct0]
    by_cases hage : age ≤ 24
    · exact ⟨(syncFinalTags_young hd hiv hage).2.1, fun h => absurd hage h⟩
    · have hpct : ¬ (0 : ℚ) ≥ 501 / 10 := by norm_num
      exact ⟨(syncFinalTags_rejected hd hna hage hpct).2.2,
        fun _ => (syncFinalTags_rejected hd hna hage hpct).1⟩

/-- Witness for C3 (amended): concrete zero-vote inputs. -/
theorem c3_zero_votes_witness :
    processThreadVotes 30 [ADDED_TO_LIST] 0 0 = none ∧
      ("Added to List" ∉ syncFinalTags sampleNames sampleAvail (votePct 0 0) 30 ∅ ∧
        (¬ (30 : ℚ) ≤ 24 →
          "Not Added to List" ∈ syncFinalTags sampleNames sampleAvail (votePct 0 0) 30 ∅)) :=
  ⟨c3_zero_votes_amended.1 30 [ADDED_TO_LIST] 0 0 (by norm_num),
   c3_zero_votes_amended.2 sampleNames sampleAvail 30 ∅ sampleNames_distinct (by decide)
     (by decide)⟩

/-! ## Claim C4 — tie-break strictness -/

/-- Claim C4, as stated, is false for `SyncCog.manage_thread_tags`: its
approval test is `vote_percentage >= 50.1`, so a 30-hour-old thread whose
percentage is exactly 50.1 (501 yes / 499 no votes) is approved. -/
theorem c4_counterexample :
    "Added to List" ∈
      syncFinalTags sampleNames sampleAvail (votePct 501 499) 30 {"Initial Vote"} := by
  have hpct : votePct 501 499 = 501 / 10 := by norm_num [votePct]
  rw [hpct]
  exact (syncFinalTags_approved sampleNames_distinct (by decide) (by norm_num)
    (le_refl _)).1

/-- Claim C4 (amended): cog.py is strict — `process_thread_votes` and
`check_thread_ratio` approve only when the vote fraction strictly exceeds
0.5001, so a fraction exactly at the threshold does not approve there — but
sync.py's `manage_thread_tags` approves at any percentage ≥ 50.1, equality
included. -/
theorem c4_tie_break_amended :
    (∀ (ageHours : ℚ) (currentTagIds : List ℕ) (yes no : ℤ),
      processThreadVotes ageHours currentTagIds yes no = some true →
        (yes : ℚ) / ((yes : ℚ) + (no : ℚ)) > 5001 / 10000) ∧
    (∀ (addedTagId notInTagId : ℕ) (currentTagIds : List ℕ) (yes no : ℤ),
      checkThreadStatus addedTagId notInTagId currentTagIds yes no = some true →
        (yes : ℚ) / ((yes : ℚ) + (no : ℚ)) > 5001 / 10000) ∧
    (∀ (n : StatusTagNames) (availableTags : Finset String)
        (votePercentage threadAge : ℚ) (currentTags : Finset String),
      n.Distinct → n.addedToList ∈ availableTags → ¬ threadAge ≤ 24 →
      votePercentage ≥ 501 / 10 →
        n.addedToList ∈
          syncFinalTags n availableTags votePercentage threadAge currentTags) := by
  refine ⟨?_, ?_, ?_⟩
  · intro age tags yes no h
    simp only [processThreadVotes] at h
    split_ifs at h
    simp only [Option.some_inj, decide_eq_true_eq] at h
    exact h
  · intro a b tags yes no h
    simp only [checkThreadStatus] at h
    split_ifs at h with h0 h1 h2 <;> simp_all
  · intro n avail pct age current hd havail hage hpct
    exact (syncFinalTags_approved hd havail hage hpct).1

/-- Witness for C4 (amended) at concrete inputs: a 30-hour-old thread with
6 yes / 4 no votes approves in cog.py (fraction 0.6 > 0.5001), and sync.py
approves at a percentage of exactly 50.1. -/
theorem c4_tie_break_witness :
    (6 : ℚ) / ((6 : ℚ) + (4 : ℚ)) > 5001 / 10000 ∧
      "Added to List" ∈
        syncFinalTags sampleNames sampleAvail (501 / 10) 30 {"Initial Vote"} :=
  ⟨c4_tie_break_amended.1 30 [INITIAL_VOTE] 6 4 (by
      simp only [processThreadVotes]
      norm_num [INITIAL_VOTE, ADDED_TO_LIST, NOT_IN_LIST]),
   c4_tie_break_amended.2.2 sampleNames sampleAvail (501 / 10) 30 {"Initial Vote"}
     sampleNames_distinct (by decide) (by norm_num) (le_refl _)⟩

/-! ## Claim C5 — vote-count non-negativity -/

/-- One step of the sync.py counting loop never decreases either component
when the reaction's count is at least 1. -/
theorem syncStep_mono (yesEmojiId noEmojiId : ℕ) (acc : ℤ × ℤ) (r : Reaction)
    (h : 1 ≤ r.count) :
    acc.1 ≤ (syncStep yesEmojiId noEmojiId acc r).1 ∧
      acc.2 ≤ (syncStep yesEmojiId noEmojiId acc r).2 := by
  rcases r with ⟨e, c⟩
  cases e <;> simp only [syncStep] <;> split_ifs <;> simp_all

/-- One step of the cog.py counting loop never decreases either component
when the reaction's count is at least 1. -/
theorem cogStep_mono (acc : ℤ × ℤ) (r : Reaction) (h : 1 ≤ r.count) :
    acc.1 ≤ (cogStep acc r).1 ∧ acc.2 ≤ (cogStep acc r).2 := by
  rcases r with ⟨e, c⟩
  cases e <;> simp only [cogStep] <;> split_ifs <;> simp_all

/-- Folding a componentwise-monotone step function over reactions with
positive counts never decreases either accumulator component. -/
theorem foldl_pair_mono (f : ℤ × ℤ → Reaction → ℤ × ℤ)
    (hf : ∀ acc r, 1 ≤ r.count → acc.1 ≤ (f acc r).1 ∧ acc.2 ≤ (f acc r).2)
    (rs : List Reaction) (acc : ℤ × ℤ) (h : ∀ r ∈ rs, 1 ≤ r.count) :
    acc.1 ≤ (rs.foldl f acc).1 ∧ acc.2 ≤ (rs.foldl f acc).2 := by
  induction rs generalizing acc with
  | nil => simp
  | cons r rest ih =>
    have h1 := hf acc r (h r (List.mem_cons_self r rest))
    have h2 := ih (f acc r) (fun x hx => h x (List.mem_cons_of_mem r hx))
    exact ⟨le_trans h1.1 h2.1, le_trans h1.2 h2.2⟩

/-- Claim C5, as stated, is false: `GoogleSheets._process_thread` does not
subtract the bot's seeding reaction (a single bot-only `pickle_yes` reaction
of count 1 yields 1 yes vote, not 0), and `SpreadsheetCog.count_votes`
performs no clamping (a matched reaction entry of count 0 yields −1). -/
theorem c5_counterexample :
    googleCountVotes [⟨.custom "pickle_yes" 1263941895625900085, 1⟩] = (1, 0) ∧
      countVotes [⟨.unicode "✅", 0⟩] = (-1, 0) := by
  decide

/-- Claim C5 (amended): the sync.py and cog.py counters subtract exactly one
per matched reaction with no clamping; the results are non-negative provided
every reaction entry has count ≥ 1 (as Discord guarantees for reactions it
reports). `GoogleSheets._process_thread` subtracts nothing at all (see the
counterexample). -/
theorem c5_nonneg_amended :
    (∀ (yesEmojiId noEmojiId : ℕ) (reactions : List Reaction),
      (∀ r ∈ reactions, 1 ≤ r.count) →
      0 ≤ (syncCountVotes yesEmojiId noEmojiId reactions).1 ∧
        0 ≤ (syncCountVotes yesEmojiId noEmojiId reactions).2) ∧
    (∀ reactions : List Reaction, (∀ r ∈ reactions, 1 ≤ r.count) →
      0 ≤ (countVotes reactions).1 ∧ 0 ≤ (countVotes reactions).2) := by
  constructor
  · intro y n rs h
    simpa [syncCountVotes] using
      foldl_pair_mono (syncStep y n) (fun acc r hr => syncStep_mono y n acc r hr)
        rs (0, 0) h
  · intro rs h
    simpa [countVotes] using
      foldl_pair_mono cogStep (fun acc r hr => cogStep_mono acc r hr) rs (0, 0) h

/-- Witness for C5 (amended) on a concrete reaction multiset. -/
theorem c5_nonneg_witness :
    (0 ≤ (syncCountVotes 5 6 [⟨.custom "py" 5, 3⟩, ⟨.unicode "❌", 2⟩]).1 ∧
      0 ≤ (syncCountVotes 5 6 [⟨.custom "py" 5, 3⟩, ⟨.unicode "❌", 2⟩]).2) ∧
    (0 ≤ (countVotes [⟨.custom "pickle_yes" 5, 4⟩]).1 ∧
      0 ≤ (countVotes [⟨.custom "pickle_yes" 5, 4⟩]).2) :=
  ⟨c5_nonneg_amended.1 5 6 [⟨.custom "py" 5, 3⟩, ⟨.unicode "❌", 2⟩] (by decide),
   c5_nonneg_amended.2 [⟨.custom "pickle_yes" 5, 4⟩] (by decide)⟩

/-! ## Claim C6 — tag reconciliation idempotence -/

/-- Claim C6, as stated, is false for `SpreadsheetCog.update_thread_tags`:
even when the Added-to-List tag is already the only status tag applied, the
function unconditionally issues a `thread.edit` call (it returns `some`,
re-writing the same tag list), rather than skipping the API call. -/
theorem c6_counterexample :
    cogUpdateThreadTags [ADDED_TO_LIST, NOT_IN_LIST, INITIAL_VOTE] [ADDED_TO_LIST] true =
        some [ADDED_TO_LIST] ∧
      cogUpdateThreadTags [ADDED_TO_LIST, NOT_IN_LIST, INITIAL_VOTE] [ADDED_TO_LIST] true ≠
        none := by
  decide

/-- Claim C6 (amended): the sync.py tag pipeline is idempotent — when the
correct status tag is already the only status tag present, the computed
deltas are empty and no `thread.edit` call is issued; and after any one pass,
a second pass with unchanged inputs computes empty deltas and issues no edit
call.  (cog.py's `update_thread_tags` instead always issues an edit call,
see the counterexample; its callers skip threads already bearing a final
status tag.) -/
theorem c6_idempotent_amended (n : StatusTagNames) (availableTags : Finset String)
    (votePercentage threadAge : ℚ) (currentTags : Finset String)
    (hd : n.Distinct) (hiv : n.initialVote ∈ availableTags)
    (hatl : n.addedToList ∈ availableTags) (hnatl : n.notAddedToList ∈ availableTags) :
    (correctStatusTag n votePercentage threadAge ∈ currentTags →
      (∀ t ∈ [n.initialVote, n.addedToList, n.notAddedToList],
        t ≠ correctStatusTag n votePercentage threadAge → t ∉ currentTags) →
      currentTags ⊆ availableTags →
      manageThreadTags n votePercentage threadAge currentTags = ([], []) ∧
        ¬ syncEditIssued availableTags currentTags
          (manageThreadTags n votePercentage threadAge currentTags).1
          (manageThreadTags n votePercentage threadAge currentTags).2) ∧
    (manageThreadTags n votePercentage threadAge
        (syncFinalTags n availableTags votePercentage threadAge currentTags) = ([], []) ∧
      ¬ syncEditIssued availableTags
        (syncFinalTags n availableTags votePercentage threadAge currentTags)
        (manageThreadTags n votePercentage threadAge
          (syncFinalTags n availableTags votePercentage threadAge currentTags)).1
        (manageThreadTags n votePercentage threadAge
          (syncFinalTags n availableTags votePercentage threadAge currentTags)).2) := by
  have noedit : ∀ cur : Finset String, cur ⊆ availableTags →
      ¬ syncEditIssued availableTags cur [] [] := fun cur hsub hne =>
    hne (updateThreadTagsNew_nil hsub)
  constructor
  · intro hcorrect hothers hsub
    have he := manageThreadTags_empty hcorrect hothers hd
    exact ⟨he, by rw [he]; exact noedit currentTags hsub⟩
  · have hmem : correctStatusTag n votePercentage threadAge ∈
        syncFinalTags n availableTags votePercentage threadAge currentTags ∧
        ∀ t ∈ [n.initialVote, n.addedToList, n.notAddedToList],
          t ≠ correctStatusTag n votePercentage threadAge →
          t ∉ syncFinalTags n availableTags votePercentage threadAge currentTags := by
      by_cases hage : threadAge ≤ 24
      · have hy := @syncFinalTags_young n availableTags votePercentage threadAge
          currentTags hd hiv hage
        rw [correctStatusTag, if_pos hage]
        refine ⟨hy.1, ?_⟩
        intro t ht hne
        simp only [List.mem_cons, List.not_mem_nil, or_false] at ht
        rcases ht with h | h | h
        · exact absurd h hne
        · exact h ▸ hy.2.1
        · exact h ▸ hy.2.2
      · by_cases hpct : votePercentage ≥ 501 / 10
        · have hy := @syncFinalTags_approved n availableTags votePercentage threadAge
            currentTags hd hatl hage hpct
          rw [correctStatusTag, if_neg hage, if_pos hpct]
          refine ⟨hy.1, ?_⟩
          intro t ht hne
          simp only [List.mem_cons, List.not_mem_nil, or_false] at ht
          rcases ht with h | h | h
          · exact h ▸ hy.2.1
          · exact absurd h hne
          · exact h ▸ hy.2.2
        · have hy := @syncFinalTags_rejected n availableTags votePercentage threadAge
            currentTags hd hnatl hage hpct
          rw [correctStatusTag, if_neg hage, if_neg hpct]
          refine ⟨hy.1, ?_⟩
          intro t ht hne
          simp only [List.mem_cons, List.not_mem_nil, or_false] at ht
          rcases ht with h | h | h
          · exact h ▸ hy.2.1
          · exact h ▸ hy.2.2
          · exact absurd h hne
    have he2 := manageThreadTags_empty hmem.1 hmem.2 hd
    exact ⟨he2, by
      rw [he2]
      exact noedit _ (syncFinalTags_subset n availableTags votePercentage threadAge
        currentTags)⟩

/-- Witness for C6 (amended): a 30-hour-old thread at percentage 80 whose
only status tag is already Added to List gets empty deltas and no edit. -/
theorem c6_idempotent_witness :
    manageThreadTags sampleNames 80 30 {"Added to List"} = ([], []) ∧
      ¬ syncEditIssued sampleAvail {"Added to List"}
        (manageThreadTags sampleNames 80 30 {"Added to List"}).1
        (manageThreadTags sampleNames 80 30 {"Added to List"}).2 := by
  have hcs : correctStatusTag sampleNames 80 30 = "Added to List" := by
    norm_num [correctStatusTag, sampleNames]
  refine (c6_idempotent_amended sampleNames sampleAvail 80 30 {"Added to List"}
    sampleNames_distinct (by decide) (by decide) (by decide)).1 ?_ ?_ ?_
  · rw [hcs]; decide
  · rw [hcs]; decide
  · decide

/-! ## Claim C10 — equivalence of the three vote counters -/

/-- Whether a reaction is a custom emoji with the given id. -/
def matchesCustom (eid : ℕ) (r : Reaction) : Bool :=
  match r.emoji with
  | .custom _ i => decide (i = eid)
  | .unicode _ => false

/-- Whether a reaction hits the yes branch of the custom-emoji matching
(`if emoji_id == yes_custom`). -/
def yesHit (yesEmojiId : ℕ) (r : Reaction) : Bool := matchesCustom yesEmojiId r

/-- Whether a reaction hits the no branch (`elif emoji_id == no_custom`,
so only when the yes branch did not match). -/
def noHit (yesEmojiId noEmojiId : ℕ) (r : Reaction) : Bool :=
  !matchesCustom yesEmojiId r && matchesCustom noEmojiId r

/-- Whether a reaction is one of the Unicode vote emojis that only sync.py's
counter matches. -/
def isUnicodeVote (r : Reaction) : Bool :=
  match r.emoji with
  | .unicode s => decide (s = "✅" ∨ s = "☑️" ∨ s = "❌" ∨ s = "✖️")
  | .custom _ _ => false

/-- Assignment-style fold: each hit overwrites the accumulator with
`count - 1` (the spreadsheets.py semantics, where a later match wins). -/
def assignFold (p : Reaction → Bool) : ℤ → List Reaction → ℤ
  | a, [] => a
  | a, r :: rest => assignFold p (if p r then (r.count : ℤ) - 1 else a) rest

/-- Accumulation-style fold: each hit adds `count - 1` to the accumulator
(the sync.py semantics). -/
def sumFold (p : Reaction → Bool) : ℤ → List Reaction → ℤ
  | a, [] => a
  | a, r :: rest => sumFold p (if p r then a + ((r.count : ℤ) - 1) else a) rest

/-- The first component of one spreadsheets.py counting step. -/
theorem spreadStep_fst (yesEmojiId noEmojiId : ℕ) (acc : ℤ × ℤ) (r : Reaction) :
    (spreadStep yesEmojiId noEmojiId acc r).1 =
      if yesHit yesEmojiId r then (r.count : ℤ) - 1 else acc.1 := by
  rcases r with ⟨e, c⟩
  cases e <;> simp only [spreadStep, yesHit, matchesCustom] <;> split_ifs <;> simp_all

/-- The second component of one spreadsheets.py counting step. -/
theorem spreadStep_snd (yesEmojiId noEmojiId : ℕ) (acc : ℤ × ℤ) (r : Reaction) :
    (spreadStep yesEmojiId noEmojiId acc r).2 =
      if noHit yesEmojiId noEmojiId r then (r.count : ℤ) - 1 else acc.2 := by
  rcases r with ⟨e, c⟩
  cases e <;> simp only [spreadStep, noHit, matchesCustom] <;> split_ifs <;> simp_all

/-- One sync.py counting step, on a reaction that is not a Unicode vote
emoji, in terms of the hit predicates. -/
theorem syncStep_eq (yesEmojiId noEmojiId : ℕ) (acc : ℤ × ℤ) (r : Reaction)
    (hu : isUnicodeVote r = false) :
    syncStep yesEmojiId noEmojiId acc r =
      (if yesHit yesEmojiId r then acc.1 + ((r.count : ℤ) - 1) else acc.1,
       if noHit yesEmojiId noEmojiId r then acc.2 + ((r.count : ℤ) - 1) else acc.2) := by
  rcases r with ⟨e, c⟩
  cases e <;>
    simp only [syncStep, yesHit, noHit, matchesCustom, isUnicodeVote,
      decide_eq_false_iff_not, not_or] at hu ⊢ <;>
    split_ifs <;> simp_all

/-- The spreadsheets.py counting loop is an assignment-style fold in each
component. -/
theorem spread_eq_assignFold (yesEmojiId noEmojiId : ℕ) (rs : List Reaction)
    (acc : ℤ × ℤ) :
    rs.foldl (spreadStep yesEmojiId noEmojiId) acc =
      (assignFold (yesHit yesEmojiId) acc.1 rs,
       assignFold (noHit yesEmojiId noEmojiId) acc.2 rs) := by
  induction rs generalizing acc with
  | nil => simp [assignFold]
  | cons r rest ih =>
    rw [List.foldl_cons, ih, assignFold, assignFold, ← spreadStep_fst, ← spreadStep_snd]

/-- On reactions with no Unicode vote emojis, the sync.py counting loop is an
accumulation-style fold in each component. -/
theorem sync_eq_sumFold (yesEmojiId noEmojiId : ℕ) (rs : List Reaction)
    (acc : ℤ × ℤ) (hu : ∀ r ∈ rs, isUnicodeVote r = false) :
    rs.foldl (syncStep yesEmojiId noEmojiId) acc =
      (sumFold (yesHit yesEmojiId) acc.1 rs,
       sumFold (noHit yesEmojiId noEmojiId) acc.2 rs) := by
  induction rs generalizing acc with
  | nil => simp [sumFold]
  | cons r rest ih =>
    rw [List.foldl_cons, ih _ (fun x hx => hu x (List.mem_cons_of_mem r hx)),
      sumFold, sumFold, syncStep_eq _ _ _ _ (hu r (List.mem_cons_self r rest))]

/-- A fold over hit-free reactions returns the accumulator unchanged. -/
theorem assignFold_of_no_hit (p : Reaction → Bool) (rs : List Reaction) (a : ℤ)
    (h : ∀ r ∈ rs, p r = false) : assignFold p a rs = a := by
  induction rs generalizing a with
  | nil => rfl
  | cons r rest ih =>
    rw [assignFold, if_neg (by simp [h r (List.mem_cons_self r rest)])]
    exact ih a (fun x hx => h x (List.mem_cons_of_mem r hx))

/-- A sum-fold over hit-free reactions returns the accumulator unchanged. -/
theorem sumFold_of_no_hit (p : Reaction → Bool) (rs : List Reaction) (a : ℤ)
    (h : ∀ r ∈ rs, p r = false) : sumFold p a rs = a := by
  induction rs generalizing a with
  | nil => rfl
  | cons r rest ih =>
    rw [sumFold, if_neg (by simp [h r (List.mem_cons_self r rest)])]
    exact ih a (fun x hx => h x (List.mem_cons_of_mem r hx))

/-- Starting from 0, assignment and accumulation agree when at most one
reaction hits. -/
theorem fold_agree (p : Reaction → Bool) (rs : List Reaction)
    (h : (rs.filter p).length ≤ 1) : assignFold p 0 rs = sumFold p 0 rs := by
  induction rs with
  | nil => rfl
  | cons r rest ih =>
    by_cases hp : p r
    · have hrest : ∀ x ∈ rest, p x = false := by
        have : (rest.filter p).length = 0 := by
          rw [List.filter_cons_of_pos hp] at h
          simpa using h
        intro x hx
        by_contra hcon
        have : x ∈ rest.filter p := List.mem_filter.mpr ⟨hx, by simpa using hcon⟩
        simp_all [List.length_eq_zero]
      rw [assignFold, sumFold, if_pos hp, if_pos hp,
        assignFold_of_no_hit p rest _ hrest, sumFold_of_no_hit p rest _ hrest]
      ring
    · rw [assignFold, sumFold, if_neg hp, if_neg hp]
      exact ih (by rwa [List.filter_cons_of_neg hp] at h)

/-- Claim C10, as stated, is false: on a single custom yes-emoji reaction of
count 2 the sync.py and spreadsheets.py counters return 1 yes vote (count
minus the bot's seed) while `GoogleSheets._process_thread` returns the raw
count 2 — the three routines do not agree. -/
theorem c10_counterexample :
    syncCountVotes 1263941895625900085 1263941842244730972
        [⟨.custom "pickle_yes" 1263941895625900085, 2⟩] = (1, 0) ∧
      spreadCountVotes 1263941895625900085 1263941842244730972
        [⟨.custom "pickle_yes" 1263941895625900085, 2⟩] = (1, 0) ∧
      googleCountVotes [⟨.custom "pickle_yes" 1263941895625900085, 2⟩] = (2, 0) ∧
      ¬ ((googleCountVotes [⟨.custom "pickle_yes" 1263941895625900085, 2⟩]).1 : ℤ) =
          (syncCountVotes 1263941895625900085 1263941842244730972
            [⟨.custom "pickle_yes" 1263941895625900085, 2⟩]).1 := by
  decide

/-- Claim C10 (amended): `SpreadsheetService.process_thread_data` and
`SyncCog.process_thread_data` compute equal vote totals whenever the opening
message carries no Unicode vote reactions and at most one reaction matches
each configured custom emoji (which is how Discord reports reactions: one
entry per emoji); `GoogleSheets._process_thread` differs in general because
it never subtracts the bot's seed reaction (see the counterexample). -/
theorem c10_equiv_amended (yesEmojiId noEmojiId : ℕ) (reactions : List Reaction)
    (hu : ∀ r ∈ reactions, isUnicodeVote r = false)
    (hy : (reactions.filter (yesHit yesEmojiId)).length ≤ 1)
    (hn : (reactions.filter (noHit yesEmojiId noEmojiId)).length ≤ 1) :
    spreadCountVotes yesEmojiId noEmojiId reactions =
      syncCountVotes yesEmojiId noEmojiId reactions := by
  rw [spreadCountVotes, syncCountVotes, spread_eq_assignFold,
    sync_eq_sumFold yesEmojiId noEmojiId reactions (0, 0) hu]
  exact congrArg₂ Prod.mk (fold_agree _ _ hy) (fold_agree _ _ hn)

/-- Witness for C10 (amended) on a concrete reaction list. -/
theorem c10_equiv_witness :
    spreadCountVotes 10 20 [⟨.custom "a" 10, 3⟩, ⟨.unicode "🙂", 7⟩] =
      syncCountVotes 10 20 [⟨.custom "a" 10, 3⟩, ⟨.unicode "🙂", 7⟩] :=
  c10_equiv_amended 10 20 [⟨.custom "a" 10, 3⟩, ⟨.unicode "🙂", 7⟩]
    (by decide) (by decide) (by decide)

/-! ## Sheet reconciliation (google_sheets.py `GoogleSheets.update_forum_data`
and `GoogleSheets._update_spreadsheet`) -/

/-- A thread as consumed by `GoogleSheets.update_forum_data`: its display
name (the row key), its creation timestamp and numeric id (used for the two
sorts), and the remaining five cells of the row `_process_thread` builds for
it.  `_process_thread` sets the row's first cell to `thread.name`, so the
full row is `name :: rest`. -/
structure DThread where
  name : String
  createdAt : ℕ
  tid : ℕ
  rest : List String
deriving DecidableEq

/-- The spreadsheet row `_process_thread` produces for a thread. -/
def rowOf (t : DThread) : List String := t.name :: t.rest

/-- Python dict assignment on an association list: an existing key keeps its
position and receives the new value, a new key is appended. -/
def insertOrUpdate (a : List (String × ℕ)) (k : String) (v : ℕ) :
    List (String × ℕ) :=
  match a with
  | [] => [(k, v)]
  | p :: rest => if p.1 = k then (k, v) :: rest else p :: insertOrUpdate rest k v

/-- Association-list lookup (`existing_threads[name]`). -/
def alookup (a : List (String × ℕ)) (k : String) : Option ℕ :=
  (a.find? (fun p => decide (p.1 = k))).map Prod.snd

/-- The `existing_threads` dict of `update_forum_data` (lines 194-198): map
the title in column B of each sheet row with a non-empty first cell to its
1-based sheet row number `i + 2`. -/
def buildExistingAux : List (List String) → ℕ → List (String × ℕ) → List (String × ℕ)
  | [], _, acc => acc
  | row :: rows, i, acc =>
      buildExistingAux rows (i + 1)
        (if row.headD "" ≠ "" then insertOrUpdate acc (row.headD "") (i + 2) else acc)

def buildExisting (rows : List (List String)) : List (String × ℕ) :=
  buildExistingAux rows 0 []

/-- The two stable sorts of `update_forum_data`: first by thread id
(line 186), then the gathered row data is re-sorted by creation timestamp
(line 220). -/
def sortedThreads (ts : List DThread) : List DThread :=
  (ts.insertionSort (fun a b => a.tid ≤ b.tid)).insertionSort
    (fun a b => a.createdAt ≤ b.createdAt)

/-- The `updates` dict computed by `update_forum_data` (lines 222-251). -/
structure Updates where
  toDelete : List ℕ
  toUpdate : List (ℕ × List String)
  toAdd : List (List String)
deriving DecidableEq

/-- The per-thread loop of `update_forum_data` (lines 235-251): threads whose
name has a sheet row get an update at that row number, the rest are
appended, in thread order. -/
def diffLoop (a : List (String × ℕ)) :
    List DThread → List (ℕ × List String) × List (List String)
  | [] => ([], [])
  | t :: ts =>
      let d := diffLoop a ts
      match alookup a t.name with
      | some r => ((r, rowOf t) :: d.1, d.2)
      | none => (d.1, rowOf t :: d.2)

/-- `GoogleSheets.update_forum_data` (lines 149-251), reduced to its pure
reconciliation core: build the existing-row index, sort the threads, and
compute the delete/update/append operations. -/
def updateForumData (existingValues : List (List String)) (threads : List DThread) :
    Updates :=
  let existingThreads := buildExisting existingValues
  let desired := sortedThreads threads
  let ud := diffLoop existingThreads desired
  ⟨existingThreads.filterMap
      (fun p => if p.1 ∈ threads.map DThread.name then none else some p.2),
    ud.1, ud.2⟩

/-- One batched call issued by `GoogleSheets._update_spreadsheet`. -/
inductive ApiCall where
  | deleteBatch (rows : List ℕ)
  | updateBatch (data : List (ℕ × List String))
  | appendBatch (values : List (List String))
deriving DecidableEq

/-- Python `sorted(_, reverse=True)` on row numbers. -/
def sortDesc (l : List ℕ) : List ℕ := l.insertionSort (fun a b => a ≥ b)

/-- The sequence of API calls issued by `_update_spreadsheet` (lines 85-120):
one structural batch-update deleting rows in descending order when there are
deletions, then one values batch-update when there are updates, then one
append call when there are additions. -/
def updateSpreadsheetCalls (u : Updates) : List ApiCall :=
  (if u.toDelete ≠ [] then [ApiCall.deleteBatch (sortDesc u.toDelete)] else []) ++
    (if u.toUpdate ≠ [] then [ApiCall.updateBatch u.toUpdate] else []) ++
    (if u.toAdd ≠ [] then [ApiCall.appendBatch u.toAdd] else [])

/-- Write a row at 0-based index `i` of the sheet body; writing past the end
lands on the (padded) empty grid row there, as the Sheets API does for a
values update addressing a row below the current data. -/
def setPad (sheet : List (List String)) (i : ℕ) (row : List String) :
    List (List String) :=
  if i < sheet.length then sheet.set i row
  else sheet ++ List.replicate (i - sheet.length) [] ++ [row]

/-- Execute the three phases of `_update_spreadsheet` on a sheet body whose
index 0 is sheet row 2 (the range is `B2:G`): deletions in descending row
order, then each values update at its recorded row number, then appends at
the end. -/
def execUpdates (sheet : List (List String)) (u : Updates) : List (List String) :=
  (u.toUpdate.foldl (fun s p => setPad s (p.1 - 2) p.2)
      ((sortDesc u.toDelete).foldl (fun s r => s.eraseIdx (r - 2)) sheet)) ++
    u.toAdd

/-! ## Claim C9 — reconciliation execution order -/

/-- The phase number of an API call: deletes before updates before appends. -/
def callRank : ApiCall → ℕ
  | .deleteBatch _ => 0
  | .updateBatch _ => 1
  | .appendBatch _ => 2

/-- Claim C9: `_update_spreadsheet` issues at most one call per phase, in
strictly increasing phase order (deletes, then updates, then appends, never
interleaved); the delete call lists the requested rows in descending order
and is a permutation of `to_delete`; the update and append calls carry
exactly `to_update` and `to_add`; and each call is issued precisely when its
operation list is non-empty. -/
theorem c9_exec_order (u : Updates) :
    ((updateSpreadsheetCalls u).map callRank).Sorted (· < ·) ∧
      (∀ l, ApiCall.deleteBatch l ∈ updateSpreadsheetCalls u →
        l.Sorted (· ≥ ·) ∧ l.Perm u.toDelete) ∧
      (∀ d, ApiCall.updateBatch d ∈ updateSpreadsheetCalls u → d = u.toUpdate) ∧
      (∀ v, ApiCall.appendBatch v ∈ updateSpreadsheetCalls u → v = u.toAdd) ∧
      ((ApiCall.deleteBatch (sortDesc u.toDelete) ∈ updateSpreadsheetCalls u ↔
          u.toDelete ≠ []) ∧
        (ApiCall.updateBatch u.toUpdate ∈ updateSpreadsheetCalls u ↔ u.toUpdate ≠ []) ∧
        (ApiCall.appendBatch u.toAdd ∈ updateSpreadsheetCalls u ↔ u.toAdd ≠ [])) := by
  have hsorted : (sortDesc u.toDelete).Sorted (· ≥ ·) :=
    List.sorted_insertionSort (fun a b => a ≥ b) u.toDelete
  have hperm : (sortDesc u.toDelete).Perm u.toDelete :=
    List.perm_insertionSort (fun a b => a ≥ b) u.toDelete
  unfold updateSpreadsheetCalls
  by_cases h1 : u.toDelete = [] <;> by_cases h2 : u.toUpdate = [] <;>
    by_cases h3 : u.toAdd = [] <;>
    simp_all [List.Sorted, callRank]

/-- Witness for C9 on a concrete `updates` dict. -/
theorem c9_exec_order_witness :
    (([5, 3, 2] : List ℕ).Sorted (· ≥ ·) ∧ ([5, 3, 2] : List ℕ).Perm [2, 5, 3]) ∧
      updateSpreadsheetCalls ⟨[2, 5, 3], [(4, ["A"])], [["B"]]⟩ =
        [ApiCall.deleteBatch [5, 3, 2], ApiCall.updateBatch [(4, ["A"])],
          ApiCall.appendBatch [["B"]]] :=
  ⟨(c9_exec_order ⟨[2, 5, 3], [(4, ["A"])], [["B"]]⟩).2.1 [5, 3, 2] (by decide),
   by decide⟩

/-! ## Structure of the existing-row index -/

/-- The straightforward enumeration of sheet rows: each row's head paired
with its 1-based sheet row number, in order. -/
def indexRows : List (List String) → ℕ → List (String × ℕ)
  | [], _ => []
  | row :: rows, i => (row.headD "", i + 2) :: indexRows rows (i + 1)

/-- Dict assignment of a fresh key appends it. -/
theorem insertOrUpdate_append (a : List (String × ℕ)) (k : String) (v : ℕ)
    (h : ∀ p ∈ a, p.1 ≠ k) : insertOrUpdate a k v = a ++ [(k, v)] := by
  induction a with
  | nil => rfl
  | cons p rest ih =>
    rw [insertOrUpdate, if_neg (h p (List.mem_cons_self p rest)), List.cons_append,
      ih (fun q hq => h q (List.mem_cons_of_mem p hq))]

/-- With non-empty, pairwise-distinct row heads, the `existing_threads` dict
is exactly the in-order enumeration of rows. -/
theorem buildExistingAux_eq (rows : List (List String)) :
    ∀ (i : ℕ) (acc : List (String × ℕ)),
    (∀ r ∈ rows, r.headD "" ≠ "") →
    (rows.map (fun r => r.headD "")).Nodup →
    (∀ r ∈ rows, ∀ p ∈ acc, p.1 ≠ r.headD "") →
    buildExistingAux rows i acc = acc ++ indexRows rows i := by
  induction rows with
  | nil => intro i acc _ _ _; simp [buildExistingAux, indexRows]
  | cons row rows ih =>
    intro i acc hne hnodup hdisj
    rw [buildExistingAux, if_pos (hne row (List.mem_cons_self row rows)),
      insertOrUpdate_append acc _ _
        (fun p hp => hdisj row (List.mem_cons_self row rows) p hp),
      ih (i + 1) (acc ++ [(row.headD "", i + 2)])
        (fun r hr => hne r (List.mem_cons_of_mem row hr))
        (by simpa using hnodup.of_cons)
        ?_, indexRows]
    · simp
    · intro r hr p hp
      rcases List.mem_append.mp hp with h | h
      · exact hdisj r (List.mem_cons_of_mem row hr) p h
      · simp only [List.mem_singleton] at h
        subst h
        simp only [List.map_cons, List.nodup_cons] at hnodup
        intro hcon
        exact hnodup.1 (by
          rw [show row.headD "" = r.headD "" from hcon]
          exact List.mem_map_of_mem (fun r => r.headD "") hr)

/-- `buildExisting` under the same hypotheses. -/
theorem buildExisting_eq (rows : List (List String))
    (hne : ∀ r ∈ rows, r.headD "" ≠ "")
    (hnodup : (rows.map (fun r => r.headD "")).Nodup) :
    buildExisting rows = indexRows rows 0 := by
  rw [buildExisting, buildExistingAux_eq rows 0 [] hne hnodup (by simp), List.nil_append]

/-- The keys of the enumeration are the row heads. -/
theorem indexRows_keys (rows : List (List String)) (i : ℕ) :
    (indexRows rows i).map Prod.fst = rows.map (fun r => r.headD "") := by
  induction rows generalizing i with
  | nil => rfl
  | cons row rows ih => simp [indexRows, ih]

/-- A key is absent from the enumeration exactly when no row head equals it. -/
theorem alookup_indexRows_none {rows : List (List String)} {i : ℕ} {k : String} :
    alookup (indexRows rows i) k = none ↔ k ∉ rows.map (fun r => r.headD "") := by
  induction rows generalizing i with
  | nil => simp [indexRows, alookup]
  | cons row rows ih =>
    by_cases hk : row.headD "" = k
    · rw [indexRows, alookup, List.find?_cons_of_pos _ (by simpa using hk)]
      simp [← hk]
    · rw [indexRows, alookup, List.find?_cons_of_neg _ (by simpa using hk)]
      show alookup (indexRows rows (i + 1)) k = none ↔ _
      rw [ih]
      simp only [List.map_cons, List.mem_cons, not_or]
      exact ⟨fun h => ⟨fun hc => hk hc.symm, h⟩, fun h => h.2⟩

/-- A successful lookup returns the sheet row number of a row whose head is
the key. -/
theorem alookup_indexRows_some {rows : List (List String)} {i : ℕ} {k : String} {v : ℕ}
    (h : alookup (indexRows rows i) k = some v) :
    ∃ j row, rows.get? j = some row ∧ row.headD "" = k ∧ v = i + j + 2 := by
  induction rows generalizing i with
  | nil => simp [indexRows, alookup] at h
  | cons row rows ih =>
    by_cases hk : row.headD "" = k
    · rw [indexRows, alookup, List.find?_cons_of_pos _ (by simpa using hk)] at h
      simp only [Option.map_some', Option.some_inj] at h
      exact ⟨0, row, rfl, hk, by omega⟩
    · rw [indexRows, alookup, List.find?_cons_of_neg _ (by simpa using hk)] at h
      obtain ⟨j, r, hget, hhead, hv⟩ := @ih (i + 1) h
      exact ⟨j + 1, r, by simpa using hget, hhead, by omega⟩

/-- With pairwise-distinct heads, the row at index `j` is looked up at sheet
row `i + j + 2`. -/
theorem alookup_indexRows_get {rows : List (List String)}
    (hnodup : (rows.map (fun r => r.headD "")).Nodup) {j : ℕ} {row : List String}
    (hget : rows.get? j = some row) (i : ℕ) :
    alookup (indexRows rows i) (row.headD "") = some (i + j + 2) := by
  induction rows generalizing i j with
  | nil => simp at hget
  | cons r0 rows ih =>
    cases j with
    | zero =>
      simp only [List.get?] at hget
      cases hget
      rw [indexRows, alookup, List.find?_cons_of_pos _ (by simp)]
      simp
    | succ j =>
      simp only [List.get?] at hget
      have hmem : row ∈ rows := List.get?_mem hget
      have hne : ¬ r0.headD "" = row.headD "" := by
        simp only [List.map_cons, List.nodup_cons] at hnodup
        intro hcon
        exact hnodup.1 (by
          rw [hcon]
          exact List.mem_map_of_mem (fun r => r.headD "") hmem)
      rw [indexRows, alookup, List.find?_cons_of_neg _ (by simpa using hne)]
      show alookup (indexRows rows (i + 1)) (row.headD "") = _
      rw [ih (by simpa using hnodup.of_cons) hget (i + 1)]
      congr 1
      omega

/-- Two keys looked up at the same sheet row number are equal. -/
theorem alookup_indexRows_inj {rows : List (List String)} {i : ℕ} {k1 k2 : String}
    {v : ℕ} (h1 : alookup (indexRows rows i) k1 = some v)
    (h2 : alookup (indexRows rows i) k2 = some v) : k1 = k2 := by
  obtain ⟨j1, r1, hg1, hh1, hv1⟩ := alookup_indexRows_some h1
  obtain ⟨j2, r2, hg2, hh2, hv2⟩ := alookup_indexRows_some h2
  have hj : j1 = j2 := by omega
  subst hj
  rw [hg1] at hg2
  cases hg2
  rw [← hh1, ← hh2]

/-! ## Structure of the diff loop and of batched update execution -/

/-- The update list computed by the per-thread loop: one entry per thread
whose name has a sheet row, in thread order. -/
theorem diffLoop_fst (a : List (String × ℕ)) (ts : List DThread) :
    (diffLoop a ts).1 =
      ts.filterMap (fun t => (alookup a t.name).map (fun r => (r, rowOf t))) := by
  induction ts with
  | nil => rfl
  | cons t ts ih =>
    simp only [diffLoop, List.filterMap_cons]
    cases h : alookup a t.name <;> simp [h, ih]

/-- The append list computed by the per-thread loop: one row per thread
whose name has no sheet row, in thread order. -/
theorem diffLoop_snd (a : List (String × ℕ)) (ts : List DThread) :
    (diffLoop a ts).2 =
      ts.filterMap (fun t =>
        match alookup a t.name with
        | some _ => none
        | none => some (rowOf t)) := by
  induction ts with
  | nil => rfl
  | cons t ts ih =>
    simp only [diffLoop, List.filterMap_cons]
    cases h : alookup a t.name <;> simp [h, ih]

/-- With pairwise-distinct thread names, searching for a member's name finds
exactly that member. -/
theorem find?_name_of_nodup {ts : List DThread} (h : (ts.map DThread.name).Nodup)
    {t : DThread} (ht : t ∈ ts) :
    ts.find? (fun x => decide (x.name = t.name)) = some t := by
  induction ts with
  | nil => simp at ht
  | cons u ts ih =>
    simp only [List.map_cons, List.nodup_cons] at h
    rcases List.mem_cons.mp ht with rfl | hmem
    · exact List.find?_cons_of_pos _ (by simp)
    · have hne : ¬ u.name = t.name := by
        intro hcon
        exact h.1 (hcon ▸ List.mem_map_of_mem DThread.name hmem)
      rw [List.find?_cons_of_neg _ (by simpa using hne)]
      exact ih h.2 hmem

/-- With pairwise-distinct row numbers all at least 2, searching for a
member's 0-based index finds exactly that member. -/
theorem find?_pos_of_nodup {ups : List (ℕ × List String)}
    (hnodup : (ups.map Prod.fst).Nodup) (h2 : ∀ p ∈ ups, 2 ≤ p.1)
    {p : ℕ × List String} (hp : p ∈ ups) :
    ups.find? (fun q => decide (q.1 - 2 = p.1 - 2)) = some p := by
  induction ups with
  | nil => simp at hp
  | cons u ups ih =>
    simp only [List.map_cons, List.nodup_cons] at hnodup
    rcases List.mem_cons.mp hp with rfl | hmem
    · exact List.find?_cons_of_pos _ (by simp)
    · have hne : ¬ u.1 - 2 = p.1 - 2 := by
        intro hcon
        have hu2 := h2 u (List.mem_cons_self u ups)
        have hp2 := h2 p (List.mem_cons_of_mem u hmem)
        have : u.1 = p.1 := by omega
        exact hnodup.1 (this ▸ List.mem_map_of_mem Prod.fst hmem)
      rw [List.find?_cons_of_neg _ (by simpa using hne)]
      exact ih hnodup.2 (fun q hq => h2 q (List.mem_cons_of_mem u hq)) hmem

/-- In-range updates preserve the sheet length. -/
theorem foldl_setPad_length (ups : List (ℕ × List String)) (s : List (List String))
    (h : ∀ p ∈ ups, p.1 - 2 < s.length) :
    (ups.foldl (fun s p => setPad s (p.1 - 2) p.2) s).length = s.length := by
  induction ups generalizing s with
  | nil => rfl
  | cons u ups ih =>
    have hu := h u (List.mem_cons_self u ups)
    have hset : (setPad s (u.1 - 2) u.2).length = s.length := by
      rw [setPad, if_pos hu, List.length_set]
    rw [List.foldl_cons,
      ih _ (fun p hp => by rw [hset]; exact h p (List.mem_cons_of_mem u hp)), hset]

/-- Folding in-range updates at pairwise-distinct row numbers acts like a
simultaneous update: each written index holds its row, all others are
untouched. -/
theorem foldl_setPad_get? (ups : List (ℕ × List String)) (s : List (List String))
    (h : ∀ p ∈ ups, p.1 - 2 < s.length) (h2 : ∀ p ∈ ups, 2 ≤ p.1)
    (hnodup : (ups.map Prod.fst).Nodup) (j : ℕ) :
    (ups.foldl (fun s p => setPad s (p.1 - 2) p.2) s).get? j =
      match ups.find? (fun p => decide (p.1 - 2 = j)) with
      | some p => some p.2
      | none => s.get? j := by
  induction ups generalizing s with
  | nil => rfl
  | cons u ups ih =>
    simp only [List.map_cons, List.nodup_cons] at hnodup
    have hu := h u (List.mem_cons_self u ups)
    have hset : (setPad s (u.1 - 2) u.2).length = s.length := by
      rw [setPad, if_pos hu, List.length_set]
    rw [List.foldl_cons,
      ih _ (fun p hp => by rw [hset]; exact h p (List.mem_cons_of_mem u hp))
        (fun p hp => h2 p (List.mem_cons_of_mem u hp)) hnodup.2]
    by_cases hj : u.1 - 2 = j
    · rw [List.find?_cons_of_pos _ (by simpa using hj)]
      have hnone : ups.find? (fun p => decide (p.1 - 2 = j)) = none := by
        rw [List.find?_eq_none]
        intro q hq hcon
        simp only [decide_eq_true_eq] at hcon
        have hq2 := h2 q (List.mem_cons_of_mem u hq)
        have hu2 := h2 u (List.mem_cons_self u ups)
        have : q.1 = u.1 := by omega
        exact hnodup.1 (this ▸ List.mem_map_of_mem Prod.fst hq)
      rw [hnone]
      show (setPad s (u.1 - 2) u.2).get? j = some u.2
      rw [setPad, if_pos hu, ← hj]
      exact List.get?_set_eq_of_lt u.2 hu
    · rw [List.find?_cons_of_neg _ (by simpa using hj)]
      cases hf : ups.find? (fun p => decide (p.1 - 2 = j)) with
      | some p => rfl
      | none =>
        show (setPad s (u.1 - 2) u.2).get? j = s.get? j
        rw [setPad, if_pos hu]
        exact List.get?_set_ne u.2 s hj

/-- The desired contents of a sheet row: the row of the first thread whose
name matches the row's head, or the row unchanged if no thread matches. -/
def replRow (ts : List DThread) (row : List String) : List String :=
  match ts.find? (fun t => decide (t.name = row.headD "")) with
  | some t => rowOf t
  | none => row

/-- The computed operation lists, written via the existing-row enumeration. -/
theorem toUpdate_eq (E : List (List String)) (threads : List DThread)
    (hEne : ∀ r ∈ E, r.headD "" ≠ "")
    (hEnodup : (E.map (fun r => r.headD "")).Nodup) :
    (updateForumData E threads).toUpdate =
      (sortedThreads threads).filterMap
        (fun t => (alookup (indexRows E 0) t.name).map (fun r => (r, rowOf t))) := by
  show (diffLoop (buildExisting E) (sortedThreads threads)).1 = _
  rw [diffLoop_fst, buildExisting_eq E hEne hEnodup]

theorem toAdd_eq (E : List (List String)) (threads : List DThread)
    (hEne : ∀ r ∈ E, r.headD "" ≠ "")
    (hEnodup : (E.map (fun r => r.headD "")).Nodup) :
    (updateForumData E threads).toAdd =
      (sortedThreads threads).filterMap (fun t =>
        match alookup (indexRows E 0) t.name with
        | some _ => none
        | none => some (rowOf t)) := by
  show (diffLoop (buildExisting E) (sortedThreads threads)).2 = _
  rw [diffLoop_snd, buildExisting_eq E hEne hEnodup]

theorem toDelete_eq (E : List (List String)) (threads : List DThread)
    (hEne : ∀ r ∈ E, r.headD "" ≠ "")
    (hEnodup : (E.map (fun r => r.headD "")).Nodup) :
    (updateForumData E threads).toDelete =
      (indexRows E 0).filterMap
        (fun p => if p.1 ∈ threads.map DThread.name then none else some p.2) := by
  show (buildExisting E).filterMap _ = _
  rw [buildExisting_eq E hEne hEnodup]

/-- The row numbers produced by looking up pairwise-distinct names are
pairwise distinct, given an injective index. -/
theorem nodup_filterMap_alookup (idx : List (String × ℕ))
    (hinj : ∀ {k1 k2 : String} {v : ℕ},
      alookup idx k1 = some v → alookup idx k2 = some v → k1 = k2)
    (ts : List DThread) (hn : (ts.map DThread.name).Nodup) :
    (ts.filterMap (fun t => alookup idx t.name)).Nodup := by
  induction ts with
  | nil => simp
  | cons t ts ih =>
    simp only [List.map_cons, List.nodup_cons] at hn
    rw [List.filterMap_cons]
    cases hl : alookup idx t.name with
    | none => exact ih hn.2
    | some v =>
      refine List.nodup_cons.mpr ⟨?_, ih hn.2⟩
      intro hcon
      obtain ⟨t', ht', hl'⟩ := List.mem_filterMap.mp hcon
      have : t'.name = t.name := hinj hl' hl
      exact hn.1 (this ▸ List.mem_map_of_mem DThread.name ht')

/-- The permutation relating the doubly-sorted thread list back to the input. -/
theorem sortedThreads_perm (threads : List DThread) :
    (sortedThreads threads).Perm threads := by
  rw [sortedThreads]
  exact (List.perm_insertionSort (fun a b => a.createdAt ≤ b.createdAt) _).trans
    (List.perm_insertionSort (fun a b => a.tid ≤ b.tid) threads)

/-- After the update phase, with no deletions executed, every sheet row holds
the row of the thread its title matches: the update fold acts as the
simultaneous replacement `E.map (replRow desired)`. -/
theorem updated_sheet_eq (E : List (List String)) (threads : List DThread)
    (hEne : ∀ r ∈ E, r.headD "" ≠ "")
    (hEnodup : (E.map (fun r => r.headD "")).Nodup)
    (hTnodup : (threads.map DThread.name).Nodup)
    (hsub : ∀ r ∈ E, r.headD "" ∈ threads.map DThread.name) :
    (updateForumData E threads).toUpdate.foldl
        (fun s p => setPad s (p.1 - 2) p.2) E =
      E.map (replRow (sortedThreads threads)) := by
  have hperm := sortedThreads_perm threads
  have hDnodup : ((sortedThreads threads).map DThread.name).Nodup :=
    ((hperm.map DThread.name).nodup_iff).mpr hTnodup
  rw [toUpdate_eq E threads hEne hEnodup]
  have hups : ∀ p ∈ (sortedThreads threads).filterMap
      (fun t => (alookup (indexRows E 0) t.name).map (fun r => (r, rowOf t))),
      ∃ t ∈ sortedThreads threads,
        alookup (indexRows E 0) t.name = some p.1 ∧ p.2 = rowOf t := by
    intro p hp
    obtain ⟨t, ht, hmap⟩ := List.mem_filterMap.mp hp
    cases hl : alookup (indexRows E 0) t.name with
    | none => rw [hl] at hmap; simp at hmap
    | some v =>
      rw [hl] at hmap
      simp only [Option.map_some', Option.some_inj] at hmap
      exact ⟨t, ht, by rw [hl, ← hmap], by rw [← hmap]⟩
  have hrange : ∀ p ∈ (sortedThreads threads).filterMap
      (fun t => (alookup (indexRows E 0) t.name).map (fun r => (r, rowOf t))),
      p.1 - 2 < E.length ∧ 2 ≤ p.1 := by
    intro p hp
    obtain ⟨t, _, hl, _⟩ := hups p hp
    obtain ⟨j, row, hget, _, hv⟩ := alookup_indexRows_some hl
    have hlt : j < E.length := by
      rcases List.get?_eq_some.mp hget with ⟨hj, _⟩
      exact hj
    omega
  have hfst : ((sortedThreads threads).filterMap
        (fun t => (alookup (indexRows E 0) t.name).map (fun r => (r, rowOf t)))).map
        Prod.fst =
      (sortedThreads threads).filterMap (fun t => alookup (indexRows E 0) t.name) := by
    rw [List.map_filterMap]
    congr 1
    funext t
    cases alookup (indexRows E 0) t.name <;> simp
  have hposnodup : (((sortedThreads threads).filterMap
      (fun t => (alookup (indexRows E 0) t.name).map (fun r => (r, rowOf t)))).map
        Prod.fst).Nodup := by
    rw [hfst]
    exact nodup_filterMap_alookup (indexRows E 0)
      (fun h1 h2 => alookup_indexRows_inj h1 h2) (sortedThreads threads) hDnodup
  apply List.ext_get?_iff.mpr
  intro j
  rw [foldl_setPad_get? _ E (fun p hp => (hrange p hp).1) (fun p hp => (hrange p hp).2)
    hposnodup j]
  by_cases hj : j < E.length
  · have hrow : E.get? j = some (E.get ⟨j, hj⟩) := List.get?_eq_get hj
    set row := E.get ⟨j, hj⟩ with hrowdef
    have hrmem : row ∈ E := List.get?_mem hrow
    have hkmem : row.headD "" ∈ threads.map DThread.name := hsub row hrmem
    have hkdes : row.headD "" ∈ (sortedThreads threads).map DThread.name :=
      ((hperm.map DThread.name).mem_iff).mpr hkmem
    obtain ⟨t, htdes, htname⟩ := List.mem_map.mp hkdes
    have hlook : alookup (indexRows E 0) t.name = some (0 + j + 2) := by
      rw [htname]
      exact alookup_indexRows_get hEnodup hrow 0
    have hpmem : ((0 + j + 2 : ℕ), rowOf t) ∈ (sortedThreads threads).filterMap
        (fun t => (alookup (indexRows E 0) t.name).map (fun r => (r, rowOf t))) :=
      List.mem_filterMap.mpr ⟨t, htdes, by rw [hlook]; rfl⟩
    have hfind := find?_pos_of_nodup hposnodup (fun p hp => (hrange p hp).2) hpmem
    simp only [show (0 + j + 2 : ℕ) - 2 = j from by omega] at hfind
    rw [hfind, List.get?_map, hrow]
    show some (rowOf t) = some (replRow (sortedThreads threads) row)
    rw [replRow]
    have hfd : (sortedThreads threads).find?
        (fun x => decide (x.name = row.headD "")) = some t := by
      rw [← htname]
      exact find?_name_of_nodup hDnodup htdes
    rw [hfd]
  · have hnone : ((sortedThreads threads).filterMap
        (fun t => (alookup (indexRows E 0) t.name).map (fun r => (r, rowOf t)))).find?
        (fun p => decide (p.1 - 2 = j)) = none := by
      rw [List.find?_eq_none]
      intro p hp hcon
      simp only [decide_eq_true_eq] at hcon
      have := (hrange p hp).1
      omega
    rw [hnone, List.get?_map]
    have : E.get? j = none := List.get?_eq_none.mpr (by omega)
    rw [this]
    rfl

/-- Replacing a row never changes its head (the matched thread has the same
name as the row's title). -/
theorem replRow_head (ts : List DThread) (row : List String) :
    (replRow ts row).headD "" = row.headD "" := by
  rw [replRow]
  cases hf : ts.find? (fun t => decide (t.name = row.headD "")) with
  | some t =>
    have := List.find?_some hf
    simp only [decide_eq_true_eq] at this
    simpa [rowOf] using this
  | none => rfl

/-- The titles of the updated sheet body coincide with the old titles. -/
theorem map_replRow_heads (ts : List DThread) (E : List (List String)) :
    (E.map (replRow ts)).map (fun r => r.headD "") = E.map (fun r => r.headD "") := by
  rw [List.map_map]
  exact List.map_congr_left (fun r _ => replRow_head ts r)

/-- Membership in the updated sheet body: exactly the rows of threads whose
name appears among the old titles. -/
theorem mem_map_replRow {E : List (List String)} {ts : List DThread}
    (hn : (ts.map DThread.name).Nodup)
    (hsub : ∀ r ∈ E, r.headD "" ∈ ts.map DThread.name) {x : List String} :
    x ∈ E.map (replRow ts) ↔
      ∃ t ∈ ts, t.name ∈ E.map (fun r => r.headD "") ∧ x = rowOf t := by
  constructor
  · intro hx
    obtain ⟨row, hrow, hrepl⟩ := List.mem_map.mp hx
    obtain ⟨t', ht', hname⟩ := List.mem_map.mp (hsub row hrow)
    have hfd : ts.find? (fun t => decide (t.name = row.headD "")) = some t' := by
      rw [← hname]
      exact find?_name_of_nodup hn ht'
    refine ⟨t', ht', ?_, ?_⟩
    · rw [hname]
      exact List.mem_map_of_mem (fun r => r.headD "") hrow
    · rw [← hrepl, replRow, hfd]
  · rintro ⟨t, ht, hmem, rfl⟩
    obtain ⟨row, hrow, hname⟩ := List.mem_map.mp hmem
    have hfd : ts.find? (fun x => decide (x.name = row.headD "")) = some t := by
      rw [hname]
      exact find?_name_of_nodup hn ht
    refine List.mem_map.mpr ⟨row, hrow, ?_⟩
    rw [replRow, hfd]

/-- The appended rows are exactly the rows of threads with no matching sheet
title, in thread order. -/
theorem filterMap_alookup_toAdd (E : List (List String)) (ts : List DThread) :
    ts.filterMap (fun t =>
        match alookup (indexRows E 0) t.name with
        | some _ => none
        | none => some (rowOf t)) =
      (ts.filter (fun t => !decide (t.name ∈ E.map (fun r => r.headD "")))).map rowOf := by
  induction ts with
  | nil => rfl
  | cons t ts ih =>
    rw [List.filterMap_cons, List.filter_cons]
    cases hl : alookup (indexRows E 0) t.name with
    | some v =>
      have hmem : t.name ∈ E.map (fun r => r.headD "") := by
        by_contra hcon
        rw [← @alookup_indexRows_none E 0 t.name] at hcon
        rw [hl] at hcon
        exact Option.some_ne_none v hcon
      simp only [hl]
      rw [if_neg (by simpa using hmem), ih]
    | none =>
      have hmem : t.name ∉ E.map (fun r => r.headD "") :=
        (@alookup_indexRows_none E 0 t.name).mp hl
      simp only [hl]
      rw [if_pos (by simpa using hmem), List.map_cons, ih]

theorem toAdd_form (E : List (List String)) (threads : List DThread)
    (hEne : ∀ r ∈ E, r.headD "" ≠ "")
    (hEnodup : (E.map (fun r => r.headD "")).Nodup) :
    (updateForumData E threads).toAdd =
      ((sortedThreads threads).filter
          (fun t => !decide (t.name ∈ E.map (fun r => r.headD "")))).map rowOf := by
  rw [toAdd_eq E threads hEne hEnodup, filterMap_alookup_toAdd]

/-- When every sheet title still has a matching thread, no rows are deleted. -/
theorem toDelete_nil (E : List (List String)) (threads : List DThread)
    (hEne : ∀ r ∈ E, r.headD "" ≠ "")
    (hEnodup : (E.map (fun r => r.headD "")).Nodup)
    (hsub : ∀ r ∈ E, r.headD "" ∈ threads.map DThread.name) :
    (updateForumData E threads).toDelete = [] := by
  rw [toDelete_eq E threads hEne hEnodup]
  apply List.filterMap_eq_nil_iff.mpr
  intro p hp
  have hkey : p.1 ∈ E.map (fun r => r.headD "") := by
    have := List.mem_map_of_mem Prod.fst hp
    rwa [indexRows_keys] at this
  obtain ⟨r, hr, hhead⟩ := List.mem_map.mp hkey
  rw [if_pos (hhead ▸ hsub r hr)]

/-! ## Claim C8 — sheet row-set bijection -/

/-- Claim C8, as stated, is false: deletes run before updates but the update
row indices are computed against the pre-delete sheet, so with existing rows
`A` (row 2) and `B` (row 3) and desired rows `[B]`, deleting row 2 shifts `B`
up and the update then writes a second `B` row below it — the resulting sheet
`[B-old, B-new]` has two rows for one desired row, so no 1:1 bijection. -/
theorem c8_counterexample :
    execUpdates [["A", "x"], ["B", "x"]]
        (updateForumData [["A", "x"], ["B", "x"]] [⟨"B", 0, 1, ["y"]⟩]) =
      [["B", "x"], ["B", "y"]] ∧
      ¬ (execUpdates [["A", "x"], ["B", "x"]]
          (updateForumData [["A", "x"], ["B", "x"]] [⟨"B", 0, 1, ["y"]⟩])).Perm
        ([(⟨"B", 0, 1, ["y"]⟩ : DThread)].map rowOf) := by
  decide

/-- Claim C8 (amended): provided all sheet titles are non-empty and pairwise
distinct, thread names are pairwise distinct, and every sheet title still has
a matching thread (so no deletes occur and no stale row indices arise), one
reconciliation pass leaves the sheet in 1:1 bijection with the desired rows:
nothing is deleted, the final row multiset is exactly one row per thread
(matching rows overwritten in place, new names appended once), and the
titles of the original row positions are unchanged. -/
theorem c8_bijection_amended (E : List (List String)) (threads : List DThread)
    (hEne : ∀ r ∈ E, r.headD "" ≠ "")
    (hEnodup : (E.map (fun r => r.headD "")).Nodup)
    (hTnodup : (threads.map DThread.name).Nodup)
    (hsub : ∀ r ∈ E, r.headD "" ∈ threads.map DThread.name) :
    (updateForumData E threads).toDelete = [] ∧
      (execUpdates E (updateForumData E threads)).Perm (threads.map rowOf) ∧
      (execUpdates E (updateForumData E threads)).map (fun r => r.headD "") =
        E.map (fun r => r.headD "") ++
          (updateForumData E threads).toAdd.map (fun r => r.headD "") := by
  have hperm := sortedThreads_perm threads
  have hDnodup : ((sortedThreads threads).map DThread.name).Nodup :=
    ((hperm.map DThread.name).nodup_iff).mpr hTnodup
  have hsub' : ∀ r ∈ E, r.headD "" ∈ (sortedThreads threads).map DThread.name :=
    fun r hr => ((hperm.map DThread.name).mem_iff).mpr (hsub r hr)
  have hdel := toDelete_nil E threads hEne hEnodup hsub
  have hexec : execUpdates E (updateForumData E threads) =
      E.map (replRow (sortedThreads threads)) ++ (updateForumData E threads).toAdd := by
    rw [execUpdates, hdel]
    rw [show sortDesc [] = [] from rfl, List.foldl_nil]
    rw [updated_sheet_eq E threads hEne hEnodup hTnodup hsub]
  refine ⟨hdel, ?_, ?_⟩
  · rw [hexec, toAdd_form E threads hEne hEnodup]
    have hupd : (E.map (replRow (sortedThreads threads))).Perm
        (((sortedThreads threads).filter
            (fun t => decide (t.name ∈ E.map (fun r => r.headD "")))).map rowOf) := by
      apply List.perm_of_nodup_nodup_toFinset_eq
      · refine List.Nodup.of_map (fun r => r.headD "") ?_
        rw [map_replRow_heads]
        exact hEnodup
      · refine List.Nodup.of_map (fun r => r.headD "") ?_
        rw [List.map_map]
        rw [List.map_congr_left
          (fun (t : DThread) _ =>
            show ((fun r => r.headD "") ∘ rowOf) t = t.name from rfl)]
        exact hDnodup.sublist ((List.filter_sublist _).map DThread.name)
      · apply List.toFinset.ext
        intro x
        rw [mem_map_replRow hDnodup hsub']
        simp only [List.mem_map, List.mem_filter, decide_eq_true_eq]
        constructor
        · rintro ⟨t, ht, hmem, rfl⟩
          exact ⟨t, ⟨ht, by simpa using hmem⟩, rfl⟩
        · rintro ⟨t, ⟨ht, hmem⟩, rfl⟩
          exact ⟨t, ht, by simpa using hmem, rfl⟩
    refine ((hupd.append (List.Perm.refl _)).trans ?_).trans (hperm.map rowOf)
    rw [← List.map_append]
    exact (List.filter_append_perm _ _).map rowOf
  · rw [hexec, List.map_append, map_replRow_heads]

/-- Witness for C8 (amended): one existing row `A`, desired threads `A`
(changed) and `B` (new); the pass updates `A` in place and appends `B`. -/
theorem c8_bijection_witness :
    (updateForumData [["A", "x"]]
        [⟨"A", 0, 1, ["a"]⟩, ⟨"B", 1, 2, ["b"]⟩]).toDelete = [] ∧
      (execUpdates [["A", "x"]]
          (updateForumData [["A", "x"]] [⟨"A", 0, 1, ["a"]⟩, ⟨"B", 1, 2, ["b"]⟩])).Perm
        ([⟨"A", 0, 1, ["a"]⟩, ⟨"B", 1, 2, ["b"]⟩].map rowOf) ∧
      (execUpdates [["A", "x"]]
          (updateForumData [["A", "x"]]
            [⟨"A", 0, 1, ["a"]⟩, ⟨"B", 1, 2, ["b"]⟩])).map (fun r => r.headD "") =
        [["A", "x"]].map (fun r => r.headD "") ++
          (updateForumData [["A", "x"]]
              [⟨"A", 0, 1, ["a"]⟩, ⟨"B", 1, 2, ["b"]⟩]).toAdd.map (fun r => r.headD "") :=
  c8_bijection_amended [["A", "x"]] [⟨"A", 0, 1, ["a"]⟩, ⟨"B", 1, 2, ["b"]⟩]
    (by decide) (by decide) (by decide) (by decide)

/-! ## Claim C7 — sheet reconciliation round trip -/

/-- Claim C7, as stated, is false: with the existing sheet equal to the
desired rows (one thread `A`, identical values), `update_forum_data` still
emits an update for the matching row — the code never compares values — and
`_update_spreadsheet` issues a batch update call, so `to_update` is not
empty and a write is executed. -/
theorem c7_counterexample :
    (updateForumData [["A", "c"]] [⟨"A", 0, 1, ["c"]⟩]).toUpdate = [(2, ["A", "c"])] ∧
      updateSpreadsheetCalls (updateForumData [["A", "c"]] [⟨"A", 0, 1, ["c"]⟩]) ≠ [] := by
  decide

/-- Claim C7 (amended): when the existing rows equal the desired rows (same
keys and values, distinct non-empty titles), reconciliation produces empty
delete and append sets, but `to_update` rewrites every matching row with its
identical values — executing the pass leaves the sheet unchanged, yet
whenever there is at least one thread a batch update call is still issued. -/
theorem c7_round_trip_amended (threads : List DThread) (E : List (List String))
    (hE : E = (sortedThreads threads).map rowOf)
    (hTnodup : (threads.map DThread.name).Nodup)
    (hTne : ∀ t ∈ threads, t.name ≠ "") :
    (updateForumData E threads).toDelete = [] ∧
      (updateForumData E threads).toAdd = [] ∧
      execUpdates E (updateForumData E threads) = E ∧
      (threads ≠ [] →
        ApiCall.updateBatch (updateForumData E threads).toUpdate ∈
            updateSpreadsheetCalls (updateForumData E threads) ∧
          updateSpreadsheetCalls (updateForumData E threads) ≠ []) := by
  subst hE
  have hperm := sortedThreads_perm threads
  have hDnodup : ((sortedThreads threads).map DThread.name).Nodup :=
    ((hperm.map DThread.name).nodup_iff).mpr hTnodup
  have hheads : ((sortedThreads threads).map rowOf).map (fun r => r.headD "") =
      (sortedThreads threads).map DThread.name := by
    rw [List.map_map]
    exact List.map_congr_left
      (fun (t : DThread) _ => show ((fun r => r.headD "") ∘ rowOf) t = t.name from rfl)
  have hEne : ∀ r ∈ (sortedThreads threads).map rowOf, r.headD "" ≠ "" := by
    intro r hr
    obtain ⟨t, ht, rfl⟩ := List.mem_map.mp hr
    show t.name ≠ ""
    exact hTne t (hperm.mem_iff.mp ht)
  have hEnodup : (((sortedThreads threads).map rowOf).map (fun r => r.headD "")).Nodup := by
    rw [hheads]
    exact hDnodup
  have hsub : ∀ r ∈ (sortedThreads threads).map rowOf,
      r.headD "" ∈ threads.map DThread.name := by
    intro r hr
    obtain ⟨t, ht, rfl⟩ := List.mem_map.mp hr
    show t.name ∈ _
    exact List.mem_map_of_mem DThread.name (hperm.mem_iff.mp ht)
  have hdel := toDelete_nil _ threads hEne hEnodup hsub
  have hadd : (updateForumData ((sortedThreads threads).map rowOf) threads).toAdd = [] := by
    rw [toAdd_form _ threads hEne hEnodup]
    have hfil : (sortedThreads threads).filter
        (fun t => !decide (t.name ∈
          ((sortedThreads threads).map rowOf).map (fun r => r.headD ""))) = [] := by
      apply List.filter_eq_nil_iff.mpr
      intro t ht
      simp only [Bool.not_eq_true', decide_eq_false_iff_not, not_not]
      rw [hheads]
      exact List.mem_map_of_mem DThread.name ht
    rw [hfil, List.map_nil]
  refine ⟨hdel, hadd, ?_, ?_⟩
  · rw [execUpdates, hdel, hadd]
    rw [show sortDesc [] = [] from rfl, List.foldl_nil,
      updated_sheet_eq _ threads hEne hEnodup hTnodup hsub, List.append_nil,
      List.map_map]
    refine List.map_congr_left (fun t ht => ?_)
    show replRow (sortedThreads threads) (rowOf t) = rowOf t
    rw [replRow, show (rowOf t).headD "" = t.name from rfl,
      find?_name_of_nodup hDnodup ht]
  · intro hne
    have hup : (updateForumData ((sortedThreads threads).map rowOf) threads).toUpdate ≠
        [] := by
      rw [toUpdate_eq _ threads hEne hEnodup]
      obtain ⟨t, ht⟩ : ∃ t, t ∈ sortedThreads threads := by
        cases hd : sortedThreads threads with
        | nil =>
          rw [hd] at hperm
          exact absurd hperm.symm.eq_nil hne
        | cons a l => exact ⟨a, hd ▸ List.mem_cons_self a l⟩
      have hmem : t.name ∈ ((sortedThreads threads).map rowOf).map
          (fun r => r.headD "") := by
        rw [hheads]
        exact List.mem_map_of_mem DThread.name ht
      cases halk : alookup (indexRows ((sortedThreads threads).map rowOf) 0) t.name with
      | none =>
        exact absurd ((@alookup_indexRows_none _ 0 t.name).mp halk) (by simpa using hmem)
      | some v =>
        exact List.ne_nil_of_mem
          (List.mem_filterMap.mpr ⟨t, ht, by rw [halk]; rfl⟩)
    have hmemcall : ApiCall.updateBatch
        (updateForumData ((sortedThreads threads).map rowOf) threads).toUpdate ∈
        updateSpreadsheetCalls
          (updateForumData ((sortedThreads threads).map rowOf) threads) := by
      rw [updateSpreadsheetCalls]
      simp [hup]
    exact ⟨hmemcall, List.ne_nil_of_mem hmemcall⟩

/-- Witness for C7 (amended) on a one-thread sheet already in sync. -/
theorem c7_round_trip_witness :
    (updateForumData [["A", "c"]] [⟨"A", 0, 1, ["c"]⟩]).toDelete = [] ∧
      (updateForumData [["A", "c"]] [⟨"A", 0, 1, ["c"]⟩]).toAdd = [] ∧
      execUpdates [["A", "c"]] (updateForumData [["A", "c"]] [⟨"A", 0, 1, ["c"]⟩]) =
        [["A", "c"]] ∧
      ([(⟨"A", 0, 1, ["c"]⟩ : DThread)] ≠ [] →
        ApiCall.updateBatch
            (updateForumData [["A", "c"]] [⟨"A", 0, 1, ["c"]⟩]).toUpdate ∈
            updateSpreadsheetCalls (updateForumData [["A", "c"]] [⟨"A", 0, 1, ["c"]⟩]) ∧
          updateSpreadsheetCalls (updateForumData [["A", "c"]] [⟨"A", 0, 1, ["c"]⟩]) ≠
            []) :=
  c7_round_trip_amended [⟨"A", 0, 1, ["c"]⟩] [["A", "c"]] (by decide) (by decide)
    (by decide)

end DillBot
